import Mathlib

/-!
Shallow embedding of the computational core of the bellman GPU fork
(`src/multiexp.rs`, `src/gpu/locks.rs`, `src/groth16/prover.rs`).

Group elements live in an arbitrary additive commutative monoid `M` with
decidable equality (the code only uses `zero`, `add_assign`, `double`, an
`is_zero` test on affine points, and scalar multiplication for the naive
specification).  Field-element representations (`Fr::Repr`, fixed-width
little-endian limb vectors) are modelled as natural numbers; `repr.shr`
is `>>>` and `repr.as_ref()[0]` (the lowest 64-bit limb) is `% 2 ^ 64`.
Fallible operations return `Except SynthesisError`; Rust panics (index out
of bounds, `assert!`, `Option::unwrap`) are modelled as `Option.none`.
-/

namespace Bellman

/-- The two `SynthesisError` variants the multiexp engine can produce:
`io::ErrorKind::UnexpectedEof` ("expected more bases from source") and
`SynthesisError::UnexpectedIdentity`. -/
inductive SynthesisError where
  | unexpectedEof : SynthesisError
  | unexpectedIdentity : SynthesisError
deriving DecidableEq, Repr

instance {ε α : Type} [DecidableEq ε] [DecidableEq α] : DecidableEq (Except ε α) :=
  fun a b =>
    match a, b with
    | .error x, .error y =>
      if h : x = y then isTrue (by rw [h]) else isFalse (by intro hh; cases hh; exact h rfl)
    | .ok x, .ok y =>
      if h : x = y then isTrue (by rw [h]) else isFalse (by intro hh; cases hh; exact h rfl)
    | .error _, .ok _ => isFalse (by intro h; cases h)
    | .ok _, .error _ => isFalse (by intro h; cases h)

/-- State threaded through one window's scan of `multiexp_inner`: the
cursor of the base `Source` (the `usize` in `(Arc<Vec<G>>, usize)`), the
window accumulator `acc`, and the `2^c - 1` bucket accumulators. -/
structure ScanState (M : Type) where
  cursor : ℕ
  acc : M
  buckets : List M
deriving DecidableEq, Repr

/-- `Source::add_assign_mixed` for `(Arc<Vec<G>>, usize)`: fails with
`UnexpectedEof` if the cursor is past the end, with `UnexpectedIdentity`
if the base at the cursor is the group identity; otherwise adds the base
into `tgt` and advances the cursor. -/
def consume {M : Type} [AddCommMonoid M] [DecidableEq M]
    (bases : List M) (st : ScanState M) (tgt : M) :
    Except SynthesisError (M × ℕ) :=
  if bases.length ≤ st.cursor then .error .unexpectedEof
  else if bases.getD st.cursor 0 = 0 then .error .unexpectedIdentity
  else .ok (tgt + bases.getD st.cursor 0, st.cursor + 1)

/-- `Source::skip(amt)`: fails with `UnexpectedEof` if the cursor is
already past the end, otherwise advances the cursor by `amt` without
decoding the base. -/
def skipSrc {M : Type} (bases : List M) (st : ScanState M) (amt : ℕ) :
    Except SynthesisError ℕ :=
  if bases.length ≤ st.cursor then .error .unexpectedEof
  else .ok (st.cursor + amt)

/-- The bucket index extracted in `multiexp_inner`:
`exp.shr(skip); exp.as_ref()[0] % (1 << c)` — shift right by `skip`,
take the lowest 64-bit limb, reduce mod `2^c`. -/
def sliceBits (c skip e : ℕ) : ℕ := ((e >>> skip) % 2 ^ 64) % 2 ^ c

/-- One iteration of the bucket-sorting loop of `multiexp_inner`, for the
pair `(exp, density)` produced by `exponents.iter().zip(density_map)`.
Inactive positions do nothing; active positions consume exactly one base
(either decoded via `add_assign_mixed` or skipped undecoded). -/
def stepPair {M : Type} [AddCommMonoid M] [DecidableEq M]
    (bases : List M) (c skip : ℕ) (handle_trivial : Bool)
    (st : ScanState M) (e : ℕ) (density : Bool) :
    Except SynthesisError (ScanState M) :=
  if density then
    if e = 0 then
      match skipSrc bases st 1 with
      | .error err => .error err
      | .ok cur => .ok { st with cursor := cur }
    else if e = 1 then
      if handle_trivial then
        match consume bases st st.acc with
        | .error err => .error err
        | .ok (a, cur) => .ok { st with acc := a, cursor := cur }
      else
        match skipSrc bases st 1 with
        | .error err => .error err
        | .ok cur => .ok { st with cursor := cur }
    else
      let b := sliceBits c skip e
      if b ≠ 0 then
        match consume bases st (st.buckets.getD (b - 1) 0) with
        | .error err => .error err
        | .ok (v, cur) =>
            .ok { st with buckets := st.buckets.set (b - 1) v, cursor := cur }
      else
        match skipSrc bases st 1 with
        | .error err => .error err
        | .ok cur => .ok { st with cursor := cur }
  else .ok st

/-- The full bucket-sorting loop
`for (&exp, density) in exponents.iter().zip(density_map.as_ref().iter())`. -/
def scanPairs {M : Type} [AddCommMonoid M] [DecidableEq M]
    (bases : List M) (c skip : ℕ) (ht : Bool) :
    List (ℕ × Bool) → ScanState M → Except SynthesisError (ScanState M)
  | [], st => .ok st
  | (e, d) :: rest, st =>
    match stepPair bases c skip ht st e d with
    | .error err => .error err
    | .ok st' => scanPairs bases c skip ht rest st'

/-- The "summation by parts" loop: iterate the buckets from the highest
index down (`buckets.into_iter().rev()`), keeping a running sum `rs` that
is added into `acc` at every step.  First argument is the already-reversed
bucket list. -/
def sbpGo {M : Type} [AddCommMonoid M] : List M → M → M → M
  | [], _, acc => acc
  | b :: rest, rs, acc => sbpGo rest (rs + b) (acc + (rs + b))

/-- One region (window) of `multiexp_inner`: fresh zero accumulator,
fresh `2^c - 1` zero buckets, the scan, then summation by parts. -/
def region {M : Type} [AddCommMonoid M] [DecidableEq M]
    (bases : List M) (c skip : ℕ) (ht : Bool)
    (pairs : List (ℕ × Bool)) (cursor : ℕ) : Except SynthesisError M :=
  match scanPairs bases c skip ht pairs ⟨cursor, 0, List.replicate (2 ^ c - 1) 0⟩ with
  | .error err => .error err
  | .ok st => .ok (sbpGo st.buckets.reverse 0 st.acc)

/-- The window recursion of `multiexp_inner`: compute this region; if
`skip + c ≥ NUM_BITS` there is no more-significant region, otherwise
recurse at `skip + c` with `handle_trivial = false`, double the higher
result `c` times and add this region.  Rust recurses on the unbounded
condition `skip < NUM_BITS`; since every claim has `c ≥ 1`, a fuel of
`numBits` (used by `multiexpInner` below) bounds that recursion exactly,
and the fuel-zero fallback is never reached. -/
def multiexpInnerGo {M : Type} [AddCommMonoid M] [DecidableEq M]
    (numBits : ℕ) (bases : List M) (pairs : List (ℕ × Bool)) (cursor c : ℕ) :
    ℕ → ℕ → Bool → Except SynthesisError M
  | 0, skip, ht => region bases c skip ht pairs cursor
  | fuel + 1, skip, ht =>
    if numBits ≤ skip + c then region bases c skip ht pairs cursor
    else
      match region bases c skip ht pairs cursor with
      | .error err => .error err
      | .ok this =>
        match multiexpInnerGo numBits bases pairs cursor c fuel (skip + c) false with
        | .error err => .error err
        | .ok higher => .ok (2 ^ c • higher + this)

/-- `multiexp_inner`: the CPU bucket-method multiexponentiation over all
windows, starting at bit `skip` (the callers use `skip = 0`,
`handle_trivial = true`). -/
def multiexpInner {M : Type} [AddCommMonoid M] [DecidableEq M]
    (numBits : ℕ) (bases : List M) (pairs : List (ℕ × Bool))
    (cursor skip c : ℕ) (ht : Bool) : Except SynthesisError M :=
  multiexpInnerGo numBits bases pairs cursor c numBits skip ht

/-- `DensityTracker`: growable bit vector plus running count of set bits. -/
structure DensityTracker where
  bv : List Bool
  total_density : ℕ
deriving DecidableEq, Repr

/-- `DensityTracker::new`. -/
def DensityTracker.new : DensityTracker := ⟨[], 0⟩

/-- `DensityTracker::add_element`: push an unset bit. -/
def DensityTracker.add_element (dt : DensityTracker) : DensityTracker :=
  ⟨dt.bv ++ [false], dt.total_density⟩

/-- `DensityTracker::inc(idx)`: `self.bv.get(idx).unwrap()` panics
(modelled as `none`) when `idx` is unallocated; otherwise the bit is set
and the count incremented only if the bit was unset. -/
def DensityTracker.inc (dt : DensityTracker) (idx : ℕ) : Option DensityTracker :=
  match dt.bv[idx]? with
  | none => none
  | some b => if !b then some ⟨dt.bv.set idx true, dt.total_density + 1⟩ else some dt

/-- `DensityTracker::get_total_density`. -/
def DensityTracker.get_total_density (dt : DensityTracker) : ℕ := dt.total_density

/-- The two `QueryDensity` instances used by `multiexp`: `FullDensity`
(an infinite repeat of `true`) or a `DensityTracker`. -/
inductive Density where
  | full : Density
  | tracker : DensityTracker → Density

/-- The density iterator, truncated at the zip with `n` exponents:
`FullDensity` yields `true` at every position, a tracker yields its bit
vector. -/
def densityList (d : Density) (n : ℕ) : List Bool :=
  match d with
  | .full => List.replicate n true
  | .tracker dt => dt.bv

/-- `get_query_size`: `None` for `FullDensity`, `Some(bv.len())` for a
tracker. -/
def densityQuerySize (d : Density) : Option ℕ :=
  match d with
  | .full => none
  | .tracker dt => some dt.bv.length

/-- Window width chosen by `multiexp` on the CPU path:
`3` for fewer than 32 exponents, else `(len as f64).ln().ceil() as u32`.
The `f64` natural logarithm is modelled as the exact real `Real.log`
(the cast of the non-negative integral `ceil` result to `u32` is
`Int.toNat`). -/
noncomputable def calc_c (n : ℕ) : ℕ :=
  if n < 32 then 3 else (⌈Real.log n⌉).toNat

/-- `multiexp`: with a kernel handle, compact the active exponents
(`vec![exponents[0]; exponents.len()]` panics — `none` — on an empty
exponent vector) and hand them to the kernel (an abstract function of the
bases, padded exponent vector, cursor offset and active count); without a
kernel, check the density assert and run `multiexp_inner` with
`skip = 0, handle_trivial = true` and the chosen window width.  A failed
`assert!(query_size == exponents.len())` is a panic, modelled as `none`. -/
noncomputable def multiexp {M : Type} [AddCommMonoid M] [DecidableEq M]
    (numBits : ℕ) (bases : List M) (start : ℕ) (d : Density) (exps : List ℕ)
    (kern : Option (List M → List ℕ → ℕ → ℕ → Except SynthesisError M)) :
    Option (Except SynthesisError M) :=
  match kern with
  | some k =>
    if exps.isEmpty then none
    else
      let actives := ((exps.zip (densityList d exps.length)).filter (fun p => p.2)).map (fun p => p.1)
      let padded := actives ++ List.replicate (exps.length - actives.length) (exps.headD 0)
      some (k bases padded start actives.length)
  | none =>
    let c := calc_c exps.length
    match densityQuerySize d with
    | none =>
      some (multiexpInner numBits bases (exps.zip (densityList d exps.length)) start 0 c true)
    | some qs =>
      if qs = exps.length then
        some (multiexpInner numBits bases (exps.zip (densityList d exps.length)) start 0 c true)
      else none

/-- Specification-side definition, following the words of the spec: the naive
sequential accumulation `Σ base·exponent` over the active positions, the
`j`-th active position consuming the `j`-th base from the cursor on. -/
def naiveAcc {M : Type} [AddCommMonoid M] (bases : List M) :
    ℕ → List (ℕ × Bool) → M
  | _, [] => 0
  | cursor, (e, true) :: rest => e • bases.getD cursor 0 + naiveAcc bases (cursor + 1) rest
  | cursor, (_, false) :: rest => naiveAcc bases cursor rest

/-! ### `gpu/locks.rs`: the priority lock

`PriorityLock` wraps the file `/tmp/bellman.priority.lock`; `IS_ME` is a
thread-local flag.  The state below views the protocol from one thread:
its `IS_ME` flag, whether the priority-lock file is held through this
handle of this process, and whether some other process holds it.
A fresh `try_lock_exclusive` on a newly created handle (`flock`
semantics) succeeds exactly when nobody — including this process through
its own handle — currently holds the file lock. -/

structure PriorityState where
  isMe : Bool
  heldBySelf : Bool
  heldByOther : Bool
deriving DecidableEq, Repr

/-- The probe `File::create(PRIORITY_LOCK_NAME)?.try_lock_exclusive().is_ok()`. -/
def tryAcquire (s : PriorityState) : Bool := !s.heldBySelf && !s.heldByOther

/-- `PriorityLock::lock` (successful return): sets the thread-local
`IS_ME`, then blocking-acquires the file lock — which returns only once
no other process holds it. -/
def PriorityLock.lock (_ : PriorityState) : PriorityState :=
  { isMe := true, heldBySelf := true, heldByOther := false }

/-- `PriorityLock::unlock`: clears `IS_ME` and releases the file lock. -/
def PriorityLock.unlock (s : PriorityState) : PriorityState :=
  { s with isMe := false, heldBySelf := false }

/-- `PriorityLock::can_lock`: "either taken by me or not taken by
somebody else" — the thread-local flag, or a successful non-blocking
try-acquire of the priority lock file. -/
def PriorityLock.can_lock (s : PriorityState) : Bool :=
  s.isMe || tryAcquire s

/-- Visible side effects of a `PriorityLock` method, in program order:
writes to the thread-local `IS_ME` flag, and acquire/release of the
priority lock file. -/
inductive LockEvent where
  | setFlag : Bool → LockEvent
  | acquireFile : LockEvent
  | releaseFile : LockEvent
deriving DecidableEq, Repr

/-- Side effects of `PriorityLock::lock` in source order:
`IS_ME.with(|f| *f.borrow_mut() = true);` then `self.0.lock_exclusive()?`. -/
def PriorityLock.lockTrace : List LockEvent := [.setFlag true, .acquireFile]

/-- Side effects of `PriorityLock::unlock` in source order:
`IS_ME.with(|f| *f.borrow_mut() = false);` then `self.0.unlock()?`. -/
def PriorityLock.unlockTrace : List LockEvent := [.setFlag false, .releaseFile]

/-! ### `groth16/prover.rs`: sticky CPU fallback in `create_proof`

`create_proof` issues 8 multiexp calls; before each it evaluates
`!check_for_higher_prio!() || keep_cpu`.  When that guard is true the
call runs on the CPU (`&mut None`), and — only if `keep_cpu` is not yet
set — the device lock is released; blocks 1–7 additionally set
`keep_cpu = true`, while block 8 (the last) only unlocks.  We model one
block as a step on the flag-and-unlock-count state, fed the abstract
observation `free` (the `check_for_higher_prio!()` result); the returned
`Bool` records whether the call was issued with the kernel argument
(`&mut multiexp_kern`, `true`) or on the CPU path (`&mut None`,
`false`).  The separate unconditional `gpu::unlock(lock)` that
`create_proof` runs after all eight blocks releases the lock at the end
of the proof and is not part of the fallback mechanism modelled here. -/

structure ProverState where
  keepCpu : Bool
  unlocks : ℕ
deriving DecidableEq, Repr

/-- One multiexp block of `create_proof`; `isLast` marks block 8, whose
fallback arm omits the `keep_cpu = true` assignment. -/
def proverStep (isLast free : Bool) (s : ProverState) : ProverState × Bool :=
  if !free || s.keepCpu then
    if !s.keepCpu then ({ keepCpu := !isLast, unlocks := s.unlocks + 1 }, false)
    else (s, false)
  else (s, true)

/-- The sequence of multiexp blocks of one `create_proof` call, driven by
the per-block device observations; the final observation is block 8.
Returns the final state and the per-block kernel-usage flags. -/
def runProver : List Bool → ProverState → ProverState × List Bool
  | [], s => (s, [])
  | [f], s =>
    let r := proverStep true f s
    (r.1, [r.2])
  | f :: f' :: rest, s =>
    let r := proverStep false f s
    let r' := runProver (f' :: rest) r.1
    (r'.1, r.2 :: r'.2)

/-! ### `DensityTracker` operation sequences -/

/-- A `DensityTracker` mutation. -/
inductive DTOp where
  | addElement : DTOp
  | inc : ℕ → DTOp
deriving DecidableEq, Repr

/-- Apply one operation; `inc` can panic (`none`). -/
def applyDTOp (dt : DensityTracker) : DTOp → Option DensityTracker
  | .addElement => some dt.add_element
  | .inc i => dt.inc i

/-- Run a sequence of operations from `DensityTracker::new`. -/
def runDTOps (ops : List DTOp) : Option DensityTracker :=
  ops.foldlM applyDTOp DensityTracker.new

/-! ### Derived definitions used by the verification development -/

def bsum {M : Type} [AddCommMonoid M] : List M → ℕ → M
  | [], _ => 0
  | b :: rest, k => k • b + bsum rest (k + 1)

def revw {M : Type} [AddCommMonoid M] : List M → M
  | [] => 0
  | b :: rest => (rest.length + 1) • b + revw rest

def psum {M : Type} [AddCommMonoid M] (w : ℕ → ℕ) (bases : List M) :
    ℕ → List (ℕ × Bool) → M
  | _, [] => 0
  | cursor, (e, true) :: rest => w e • bases.getD cursor 0 + psum w bases (cursor + 1) rest
  | cursor, (_, false) :: rest => psum w bases cursor rest

def activeCount (pairs : List (ℕ × Bool)) : ℕ := (pairs.filter (fun p => p.2)).length

def okBasesB {M : Type} [AddCommMonoid M] [DecidableEq M] (w : ℕ → ℕ) (bases : List M) :
    ℕ → List (ℕ × Bool) → Bool
  | _, [] => true
  | cursor, (e, true) :: rest =>
    (decide (w e = 0) || !(decide (bases.getD cursor 0 = 0))) &&
      okBasesB w bases (cursor + 1) rest
  | cursor, (_, false) :: rest => okBasesB w bases cursor rest

def wght (c skip : ℕ) (ht : Bool) (e : ℕ) : ℕ :=
  if e = 0 then 0 else if e = 1 then (if ht then 1 else 0) else sliceBits c skip e

def scanVal {M : Type} [AddCommMonoid M] (st : ScanState M) : M :=
  st.acc + bsum st.buckets 1

def cov (numBits c : ℕ) : ℕ → ℕ → ℕ
  | 0, _ => c
  | fuel + 1, skip => if numBits ≤ skip + c then c else c + cov numBits c fuel (skip + c)

def dtInvariant (dt : DensityTracker) : Prop :=
  dt.get_total_density = dt.bv.count true

/-! ### Verification development -/

theorem bsum_succ {M : Type} [AddCommMonoid M] :
    ∀ (l : List M) (k : ℕ), bsum l (k + 1) = bsum l k + l.sum := by
  intro l
  induction l with
  | nil => intro k; simp [bsum]
  | cons b t ih =>
    intro k
    simp only [bsum, List.sum_cons, ih (k + 1), succ_nsmul]
    abel

theorem revw_append {M : Type} [AddCommMonoid M] :
    ∀ (l : List M) (x : M), revw (l ++ [x]) = revw l + l.sum + x := by
  intro l
  induction l with
  | nil => intro x; simp [revw]
  | cons b t ih =>
    intro x
    simp only [List.cons_append, revw, List.sum_cons]
    simp only [List.append_eq, List.length_append, ih x, List.length_cons, List.length_nil]
    rw [show (t.length + 1 + 1) • b = (t.length + 1) • b + b from succ_nsmul b (t.length + 1)]
    abel

theorem revw_reverse {M : Type} [AddCommMonoid M] :
    ∀ l : List M, revw l.reverse = bsum l 1 := by
  intro l
  induction l with
  | nil => rfl
  | cons b t ih =>
    simp only [List.reverse_cons, revw_append, ih, bsum, one_nsmul, bsum_succ,
      List.sum_reverse]
    abel

theorem sbpGo_eq {M : Type} [AddCommMonoid M] :
    ∀ (l : List M) (rs acc : M), sbpGo l rs acc = acc + l.length • rs + revw l := by
  intro l
  induction l with
  | nil => intro rs acc; simp [sbpGo, revw]
  | cons b t ih =>
    intro rs acc
    simp only [sbpGo, ih, revw, List.length_cons, smul_add, succ_nsmul]
    abel

theorem sbp_spec {M : Type} [AddCommMonoid M] (l : List M) (acc : M) :
    sbpGo l.reverse 0 acc = acc + bsum l 1 := by
  rw [sbpGo_eq, revw_reverse, smul_zero, add_zero]

theorem bsum_replicate_zero {M : Type} [AddCommMonoid M] :
    ∀ (n k : ℕ), bsum (List.replicate n (0 : M)) k = 0 := by
  intro n
  induction n with
  | zero => intro k; rfl
  | succ m ih =>
    intro k
    simp only [List.replicate_succ, bsum, smul_zero, zero_add, ih]

theorem bsum_set {M : Type} [AddCommMonoid M] :
    ∀ (l : List M) (i : ℕ) (g : M) (k : ℕ), i < l.length →
      bsum (l.set i (l.getD i 0 + g)) k = bsum l k + (k + i) • g := by
  intro l
  induction l with
  | nil => intro i g k h; cases h
  | cons b t ih =>
    intro i g k h
    cases i with
    | zero =>
      simp only [List.set_cons_zero, List.getD_cons_zero, bsum, smul_add]
      abel
    | succ j =>
      simp only [List.set_cons_succ, List.getD_cons_succ, bsum,
        ih j g (k + 1) (by simpa using h)]
      rw [show k + (j + 1) = k + 1 + j from by omega]
      abel

@[simp] theorem activeCount_nil : activeCount ([] : List (ℕ × Bool)) = 0 := rfl

@[simp] theorem activeCount_cons_true (e : ℕ) (r : List (ℕ × Bool)) :
    activeCount ((e, true) :: r) = activeCount r + 1 := by
  simp [activeCount, List.filter]

@[simp] theorem activeCount_cons_false (e : ℕ) (r : List (ℕ × Bool)) :
    activeCount ((e, false) :: r) = activeCount r := by
  simp [activeCount, List.filter]

theorem okBasesB_cons_true {M : Type} [AddCommMonoid M] [DecidableEq M]
    (w : ℕ → ℕ) (bases : List M) (cursor : ℕ) (e : ℕ) (rest : List (ℕ × Bool)) :
    okBasesB w bases cursor ((e, true) :: rest) = true ↔
      ((w e ≠ 0 → bases.getD cursor 0 ≠ 0) ∧ okBasesB w bases (cursor + 1) rest = true) := by
  simp only [okBasesB, Bool.and_eq_true, Bool.or_eq_true, decide_eq_true_eq,
    Bool.not_eq_true', decide_eq_false_iff_not]
  constructor
  · rintro ⟨h1 | h1, h2⟩
    · exact ⟨fun hw => absurd h1 hw, h2⟩
    · exact ⟨fun _ => h1, h2⟩
  · rintro ⟨h1, h2⟩
    by_cases hw : w e = 0
    · exact ⟨Or.inl hw, h2⟩
    · exact ⟨Or.inr (h1 hw), h2⟩

theorem okBasesB_mono {M : Type} [AddCommMonoid M] [DecidableEq M]
    (w₁ w₂ : ℕ → ℕ) (bases : List M) (hmono : ∀ e, w₂ e ≠ 0 → w₁ e ≠ 0) :
    ∀ (pairs : List (ℕ × Bool)) (cursor : ℕ),
      okBasesB w₁ bases cursor pairs = true → okBasesB w₂ bases cursor pairs = true := by
  intro pairs
  induction pairs with
  | nil => intro cursor _; rfl
  | cons p rest ih =>
    intro cursor h
    obtain ⟨e, d⟩ := p
    cases d with
    | false => exact ih cursor h
    | true =>
      rw [okBasesB_cons_true] at h ⊢
      exact ⟨fun hw => h.1 (hmono e hw), ih (cursor + 1) h.2⟩

theorem psum_congr {M : Type} [AddCommMonoid M] (w₁ w₂ : ℕ → ℕ) (bases : List M)
    (hw : ∀ e, w₁ e = w₂ e) :
    ∀ (pairs : List (ℕ × Bool)) (cursor : ℕ),
      psum w₁ bases cursor pairs = psum w₂ bases cursor pairs := by
  intro pairs
  induction pairs with
  | nil => intro cursor; rfl
  | cons p rest ih =>
    intro cursor
    obtain ⟨e, d⟩ := p
    cases d with
    | false => exact ih cursor
    | true => simp only [psum, hw e, ih (cursor + 1)]

theorem psum_congr_mem {M : Type} [AddCommMonoid M] (w₁ w₂ : ℕ → ℕ) (bases : List M) :
    ∀ (pairs : List (ℕ × Bool)) (cursor : ℕ),
      (∀ p ∈ pairs, w₁ p.1 = w₂ p.1) →
      psum w₁ bases cursor pairs = psum w₂ bases cursor pairs := by
  intro pairs
  induction pairs with
  | nil => intro cursor _; rfl
  | cons p rest ih =>
    intro cursor hw
    obtain ⟨e, d⟩ := p
    cases d with
    | false => exact ih cursor (fun q hq => hw q (List.mem_cons_of_mem _ hq))
    | true =>
      have he : w₁ e = w₂ e := hw (e, true) (List.mem_cons_self _ _)
      simp only [psum, he, ih (cursor + 1) (fun q hq => hw q (List.mem_cons_of_mem _ hq))]

theorem psum_add_mul {M : Type} [AddCommMonoid M] (w₁ w₂ : ℕ → ℕ) (n : ℕ) (bases : List M) :
    ∀ (pairs : List (ℕ × Bool)) (cursor : ℕ),
      psum (fun e => w₁ e + n * w₂ e) bases cursor pairs =
        psum w₁ bases cursor pairs + n • psum w₂ bases cursor pairs := by
  intro pairs
  induction pairs with
  | nil => intro cursor; simp [psum]
  | cons p rest ih =>
    intro cursor
    obtain ⟨e, d⟩ := p
    cases d with
    | false => exact ih cursor
    | true =>
      simp only [psum, ih (cursor + 1), add_nsmul, mul_nsmul', smul_add]
      abel

theorem stepPair_active_ok {M : Type} [AddCommMonoid M] [DecidableEq M]
    (bases : List M) (c skip : ℕ) (ht : Bool) (st : ScanState M) (e : ℕ)
    (hcur : st.cursor < bases.length)
    (hzero : wght c skip ht e ≠ 0 → bases.getD st.cursor 0 ≠ 0)
    (hlen : st.buckets.length = 2 ^ c - 1) :
    ∃ st', stepPair bases c skip ht st e true = .ok st' ∧
      st'.cursor = st.cursor + 1 ∧
      st'.buckets.length = st.buckets.length ∧
      scanVal st' = scanVal st + wght c skip ht e • bases.getD st.cursor 0 := by
  have hnle : ¬ (bases.length ≤ st.cursor) := by omega
  by_cases he0 : e = 0
  · refine ⟨{ st with cursor := st.cursor + 1 }, ?_, rfl, rfl, ?_⟩
    · simp [stepPair, he0, skipSrc, hnle]
    · simp [wght, he0, scanVal]
  · by_cases he1 : e = 1
    · cases ht with
      | true =>
        have hw : wght c skip true e = 1 := by simp [wght, he0, he1]
        have hb : bases.getD st.cursor 0 ≠ 0 := hzero (by rw [hw]; exact one_ne_zero)
        refine ⟨{ st with acc := st.acc + bases.getD st.cursor 0, cursor := st.cursor + 1 },
          ?_, rfl, rfl, ?_⟩
        · simp only [List.getD_eq_getElem?_getD] at hb
          simp [stepPair, he0, he1, consume, hnle, hb]
        · simp [scanVal, hw, one_nsmul]
          abel
      | false =>
        refine ⟨{ st with cursor := st.cursor + 1 }, ?_, rfl, rfl, ?_⟩
        · simp [stepPair, he0, he1, skipSrc, hnle]
        · simp [wght, he0, he1, scanVal]
    · by_cases hb0 : sliceBits c skip e = 0
      · refine ⟨{ st with cursor := st.cursor + 1 }, ?_, rfl, rfl, ?_⟩
        · simp [stepPair, he0, he1, hb0, skipSrc, hnle]
        · simp [wght, he0, he1, hb0, scanVal]
      · have hw : wght c skip ht e = sliceBits c skip e := by simp [wght, he0, he1]
        have hb : bases.getD st.cursor 0 ≠ 0 := hzero (by rw [hw]; exact hb0)
        have hblt : sliceBits c skip e - 1 < st.buckets.length := by
          have h1 : sliceBits c skip e < 2 ^ c := Nat.mod_lt _ (Nat.pos_pow_of_pos c (by omega))
          have h2 : 0 < 2 ^ c := Nat.pos_pow_of_pos c (by omega)
          omega
        refine ⟨{ st with
            buckets := st.buckets.set (sliceBits c skip e - 1)
              (st.buckets.getD (sliceBits c skip e - 1) 0 + bases.getD st.cursor 0),
            cursor := st.cursor + 1 }, ?_, rfl, by simp, ?_⟩
        · simp only [List.getD_eq_getElem?_getD] at hb
          simp [stepPair, he0, he1, hb0, consume, hnle, hb]
        · simp only [scanVal, hw]
          rw [bsum_set st.buckets (sliceBits c skip e - 1) (bases.getD st.cursor 0) 1 hblt]
          rw [show 1 + (sliceBits c skip e - 1) = sliceBits c skip e from by omega]
          abel

theorem stepPair_ok_inv {M : Type} [AddCommMonoid M] [DecidableEq M]
    {bases : List M} {c skip : ℕ} {ht : Bool} {st st' : ScanState M} {e : ℕ}
    (h : stepPair bases c skip ht st e true = .ok st') :
    st.cursor < bases.length ∧ st'.cursor = st.cursor + 1 ∧
      st'.buckets.length = st.buckets.length := by
  by_cases hle : bases.length ≤ st.cursor
  · exfalso
    by_cases he0 : e = 0
    · simp [stepPair, he0, skipSrc, hle] at h
    · by_cases he1 : e = 1
      · cases ht with
        | true => simp [stepPair, he0, he1, consume, hle] at h
        | false => simp [stepPair, he0, he1, skipSrc, hle] at h
      · by_cases hb0 : sliceBits c skip e = 0
        · simp [stepPair, he0, he1, hb0, skipSrc, hle] at h
        · simp [stepPair, he0, he1, hb0, consume, hle] at h
  · refine ⟨by omega, ?_⟩
    by_cases he0 : e = 0
    · simp [stepPair, he0, skipSrc, hle] at h
      rw [← h]
      exact ⟨rfl, rfl⟩
    · by_cases he1 : e = 1
      · cases ht with
        | true =>
          by_cases hbz : (bases[st.cursor]?).getD 0 = 0
          · simp [stepPair, he0, he1, consume, hle, hbz] at h
          · simp [stepPair, he0, he1, consume, hle, hbz] at h
            rw [← h]
            exact ⟨rfl, rfl⟩
        | false =>
          simp [stepPair, he0, he1, skipSrc, hle] at h
          rw [← h]
          exact ⟨rfl, rfl⟩
      · by_cases hb0 : sliceBits c skip e = 0
        · simp [stepPair, he0, he1, hb0, skipSrc, hle] at h
          rw [← h]
          exact ⟨rfl, rfl⟩
        · by_cases hbz : (bases[st.cursor]?).getD 0 = 0
          · simp [stepPair, he0, he1, hb0, consume, hle, hbz] at h
          · simp [stepPair, he0, he1, hb0, consume, hle, hbz] at h
            rw [← h]
            exact ⟨rfl, by simp⟩

theorem stepPair_error_identity {M : Type} [AddCommMonoid M] [DecidableEq M]
    {bases : List M} {c skip : ℕ} {ht : Bool} {st : ScanState M} {e : ℕ} {err : SynthesisError}
    (hcur : st.cursor < bases.length)
    (h : stepPair bases c skip ht st e true = .error err) :
    err = .unexpectedIdentity := by
  have hle : ¬ (bases.length ≤ st.cursor) := by omega
  by_cases he0 : e = 0
  · simp [stepPair, he0, skipSrc, hle] at h
  · by_cases he1 : e = 1
    · cases ht with
      | true =>
        by_cases hbz : (bases[st.cursor]?).getD 0 = 0
        · simp [stepPair, he0, he1, consume, hle, hbz] at h
          exact h.symm
        · simp [stepPair, he0, he1, consume, hle, hbz] at h
      | false => simp [stepPair, he0, he1, skipSrc, hle] at h
    · by_cases hb0 : sliceBits c skip e = 0
      · simp [stepPair, he0, he1, hb0, skipSrc, hle] at h
      · by_cases hbz : (bases[st.cursor]?).getD 0 = 0
        · simp [stepPair, he0, he1, hb0, consume, hle, hbz] at h
          exact h.symm
        · simp [stepPair, he0, he1, hb0, consume, hle, hbz] at h

theorem stepPair_bad_not_ok {M : Type} [AddCommMonoid M] [DecidableEq M]
    {bases : List M} {c skip : ℕ} {ht : Bool} {st st' : ScanState M} {e : ℕ}
    (hb : bases.getD st.cursor 0 = 0)
    (hw : wght c skip ht e ≠ 0) :
    stepPair bases c skip ht st e true ≠ .ok st' := by
  intro h
  simp only [List.getD_eq_getElem?_getD] at hb
  by_cases hle : bases.length ≤ st.cursor
  · by_cases he0 : e = 0
    · simp [stepPair, he0, skipSrc, hle] at h
    · by_cases he1 : e = 1
      · cases ht with
        | true => simp [stepPair, he0, he1, consume, hle] at h
        | false => simp [stepPair, he0, he1, skipSrc, hle] at h
      · by_cases hb0 : sliceBits c skip e = 0
        · simp [stepPair, he0, he1, hb0, skipSrc, hle] at h
        · simp [stepPair, he0, he1, hb0, consume, hle] at h
  · by_cases he0 : e = 0
    · exact hw (by simp [wght, he0])
    · by_cases he1 : e = 1
      · cases ht with
        | true => simp [stepPair, he0, he1, consume, hle, hb] at h
        | false => exact hw (by simp [wght, he0, he1])
      · by_cases hb0 : sliceBits c skip e = 0
        · exact hw (by simp [wght, he0, he1, hb0])
        · simp [stepPair, he0, he1, hb0, consume, hle, hb] at h

theorem scanPairs_ok {M : Type} [AddCommMonoid M] [DecidableEq M]
    (bases : List M) (c skip : ℕ) (ht : Bool) :
    ∀ (pairs : List (ℕ × Bool)) (st : ScanState M),
      st.cursor + activeCount pairs ≤ bases.length →
      okBasesB (wght c skip ht) bases st.cursor pairs = true →
      st.buckets.length = 2 ^ c - 1 →
      ∃ st', scanPairs bases c skip ht pairs st = .ok st' ∧
        st'.cursor = st.cursor + activeCount pairs ∧
        st'.buckets.length = st.buckets.length ∧
        scanVal st' = scanVal st + psum (wght c skip ht) bases st.cursor pairs := by
  intro pairs
  induction pairs with
  | nil =>
    intro st _ _ _
    exact ⟨st, rfl, by simp, rfl, by simp [psum]⟩
  | cons p rest ih =>
    intro st hcount hok hlen
    obtain ⟨e, d⟩ := p
    cases d with
    | false =>
      obtain ⟨st', h1, h2, h3, h4⟩ := ih st (by simpa using hcount) hok hlen
      refine ⟨st', ?_, by simpa using h2, h3, by simpa [psum] using h4⟩
      simpa [scanPairs, stepPair] using h1
    | true =>
      rw [okBasesB_cons_true] at hok
      have hcur : st.cursor < bases.length := by
        have := hcount
        simp only [activeCount_cons_true] at this
        omega
      obtain ⟨st₁, hstep, hc1, hl1, hv1⟩ :=
        stepPair_active_ok bases c skip ht st e hcur hok.1 hlen
      obtain ⟨st', h1, h2, h3, h4⟩ := ih st₁
        (by simp only [activeCount_cons_true] at hcount; omega)
        (by rw [hc1]; exact hok.2)
        (by rw [hl1]; exact hlen)
      refine ⟨st', ?_, ?_, ?_, ?_⟩
      · simp only [scanPairs, hstep, h1]
      · rw [h2, hc1]
        simp only [activeCount_cons_true]
        omega
      · rw [h3, hl1]
      · rw [h4, hv1, hc1]
        simp only [psum]
        abel

theorem scanPairs_classify {M : Type} [AddCommMonoid M] [DecidableEq M]
    (bases : List M) (c skip : ℕ) (ht : Bool) :
    ∀ (pairs : List (ℕ × Bool)) (st : ScanState M),
      st.cursor + activeCount pairs ≤ bases.length →
      (∃ st', scanPairs bases c skip ht pairs st = .ok st') ∨
        scanPairs bases c skip ht pairs st = .error .unexpectedIdentity := by
  intro pairs
  induction pairs with
  | nil => intro st _; exact Or.inl ⟨st, rfl⟩
  | cons p rest ih =>
    intro st hcount
    obtain ⟨e, d⟩ := p
    cases d with
    | false =>
      rcases ih st (by simpa using hcount) with ⟨st', h⟩ | h
      · exact Or.inl ⟨st', by simpa [scanPairs, stepPair] using h⟩
      · exact Or.inr (by simpa [scanPairs, stepPair] using h)
    | true =>
      have hcur : st.cursor < bases.length := by
        simp only [activeCount_cons_true] at hcount
        omega
      cases hstep : stepPair bases c skip ht st e true with
      | error err =>
        right
        rw [stepPair_error_identity hcur hstep] at hstep
        simp [scanPairs, hstep]
      | ok st₁ =>
        obtain ⟨_, hc1, _⟩ := stepPair_ok_inv hstep
        rcases ih st₁ (by simp only [activeCount_cons_true] at hcount; omega) with ⟨st', h⟩ | h
        · exact Or.inl ⟨st', by simp [scanPairs, hstep, h]⟩
        · exact Or.inr (by simp [scanPairs, hstep, h])

theorem scanPairs_ok_wght_zero {M : Type} [AddCommMonoid M] [DecidableEq M]
    (bases : List M) (c skip : ℕ) (ht : Bool) :
    ∀ (pairs : List (ℕ × Bool)) (st st' : ScanState M) (j : ℕ) (e : ℕ),
      scanPairs bases c skip ht pairs st = .ok st' →
      pairs[j]? = some (e, true) →
      bases.getD (st.cursor + activeCount (pairs.take j)) 0 = 0 →
      wght c skip ht e = 0 := by
  intro pairs
  induction pairs with
  | nil => intro st st' j e _ hj; cases hj
  | cons p rest ih =>
    intro st st' j e hscan hj hb
    obtain ⟨e₀, d₀⟩ := p
    cases d₀ with
    | false =>
      have hstep : scanPairs bases c skip ht rest st = .ok st' := by
        simpa [scanPairs, stepPair] using hscan
      cases j with
      | zero => simp at hj
      | succ j' =>
        simp only [List.getElem?_cons_succ] at hj
        refine ih st st' j' e hstep hj ?_
        simpa [List.take_succ_cons] using hb
    | true =>
      cases hstep : stepPair bases c skip ht st e₀ true with
      | error err => simp [scanPairs, hstep] at hscan
      | ok st₁ =>
        have hrest : scanPairs bases c skip ht rest st₁ = .ok st' := by
          simpa [scanPairs, hstep] using hscan
        cases j with
        | zero =>
          simp only [List.getElem?_cons_zero, Option.some.injEq, Prod.mk.injEq] at hj
          obtain ⟨he, -⟩ := hj
          subst he
          by_contra hw
          exact stepPair_bad_not_ok (by simpa using hb) hw hstep
        | succ j' =>
          simp only [List.getElem?_cons_succ] at hj
          obtain ⟨_, hc1, _⟩ := stepPair_ok_inv hstep
          refine ih st₁ st' j' e hrest hj ?_
          rw [hc1]
          have : st.cursor + activeCount (((e₀, true) :: rest).take (j' + 1)) =
              st.cursor + 1 + activeCount (rest.take j') := by
            simp [List.take_succ_cons]
            omega
          rw [← this]
          exact hb

theorem region_ok {M : Type} [AddCommMonoid M] [DecidableEq M]
    (bases : List M) (c skip : ℕ) (ht : Bool) (pairs : List (ℕ × Bool)) (cursor : ℕ)
    (hcount : cursor + activeCount pairs ≤ bases.length)
    (hok : okBasesB (wght c skip ht) bases cursor pairs = true) :
    region bases c skip ht pairs cursor = .ok (psum (wght c skip ht) bases cursor pairs) := by
  obtain ⟨st', h1, h2, h3, h4⟩ := scanPairs_ok bases c skip ht pairs
    ⟨cursor, 0, List.replicate (2 ^ c - 1) 0⟩ (by simpa) (by simpa) (by simp)
  unfold region
  rw [h1]
  have hval : scanVal st' = psum (wght c skip ht) bases cursor pairs := by
    rw [h4]
    simp [scanVal, bsum_replicate_zero]
  simp only [scanVal] at hval
  show Except.ok (sbpGo st'.buckets.reverse 0 st'.acc) = _
  rw [sbp_spec st'.buckets st'.acc, hval]

theorem region_classify {M : Type} [AddCommMonoid M] [DecidableEq M]
    (bases : List M) (c skip : ℕ) (ht : Bool) (pairs : List (ℕ × Bool)) (cursor : ℕ)
    (hcount : cursor + activeCount pairs ≤ bases.length) :
    (∃ v, region bases c skip ht pairs cursor = .ok v) ∨
      region bases c skip ht pairs cursor = .error .unexpectedIdentity := by
  rcases scanPairs_classify bases c skip ht pairs
      ⟨cursor, 0, List.replicate (2 ^ c - 1) 0⟩ (by simpa) with ⟨st', h⟩ | h
  · left
    exact ⟨_, by unfold region; rw [h]⟩
  · right
    unfold region
    rw [h]

theorem region_ok_wght_zero {M : Type} [AddCommMonoid M] [DecidableEq M]
    {bases : List M} {c skip : ℕ} {ht : Bool} {pairs : List (ℕ × Bool)} {cursor : ℕ}
    {v : M} {j e : ℕ}
    (h : region bases c skip ht pairs cursor = .ok v)
    (hj : pairs[j]? = some (e, true))
    (hb : bases.getD (cursor + activeCount (pairs.take j)) 0 = 0) :
    wght c skip ht e = 0 := by
  unfold region at h
  cases hscan : scanPairs bases c skip ht pairs ⟨cursor, 0, List.replicate (2 ^ c - 1) 0⟩ with
  | error err => rw [hscan] at h; cases h
  | ok st' => exact scanPairs_ok_wght_zero bases c skip ht pairs _ st' j e hscan hj hb

theorem cov_ge (numBits c : ℕ) : ∀ (fuel skip : ℕ),
    numBits ≤ skip + c * (fuel + 1) → numBits ≤ skip + cov numBits c fuel skip := by
  intro fuel
  induction fuel with
  | zero =>
    intro skip h
    simpa [cov] using h
  | succ f ih =>
    intro skip h
    by_cases hc : numBits ≤ skip + c
    · simp only [cov]
      rw [if_pos hc]
      exact hc
    · have h' : numBits ≤ skip + c + c * (f + 1) := by
        rw [Nat.mul_succ] at h
        omega
      have h2 := ih (skip + c) h'
      simp only [cov, hc, if_false]
      omega

theorem wght_eq_mod (c skip : ℕ) (ht : Bool) (e : ℕ)
    (hc : 0 < c) (hc64 : c ≤ 64) (hts : ht = true ↔ skip = 0) :
    wght c skip ht e = (e >>> skip) % 2 ^ c := by
  by_cases he0 : e = 0
  · simp [wght, he0, Nat.shiftRight_eq_div_pow, Nat.zero_div]
  · by_cases he1 : e = 1
    · subst he1
      cases ht with
      | true =>
        have hskip : skip = 0 := hts.mp rfl
        subst hskip
        have h2 : (1 : ℕ) < 2 ^ c := Nat.one_lt_two_pow_iff.mpr (by omega)
        simp [wght, Nat.shiftRight_eq_div_pow, Nat.mod_eq_of_lt h2]
      | false =>
        have hskip : skip ≠ 0 := fun h => by simpa using hts.mpr h
        have hlt : (1 : ℕ) < 2 ^ skip := Nat.one_lt_two_pow_iff.mpr hskip
        simp [wght, Nat.shiftRight_eq_div_pow, Nat.div_eq_of_lt hlt]
    · simp only [wght, he0, he1, if_false, sliceBits]
      exact Nat.mod_mod_of_dvd _ (pow_dvd_pow 2 hc64)

theorem mod_pow_split (x c B : ℕ) :
    x % 2 ^ (c + B) = x % 2 ^ c + 2 ^ c * (x / 2 ^ c % 2 ^ B) := by
  rw [pow_add]
  exact Nat.mod_mul

theorem shiftRight_div_pow (e skip c : ℕ) : (e >>> skip) / 2 ^ c = e >>> (skip + c) := by
  rw [Nat.shiftRight_eq_div_pow, Nat.shiftRight_eq_div_pow, Nat.div_div_eq_div_mul, pow_add]

theorem wght_ne_zero_imp (c skip : ℕ) (ht : Bool) (e : ℕ) (h : wght c skip ht e ≠ 0) :
    e ≠ 0 := by
  intro he
  exact h (by simp [wght, he])

theorem multiexpInnerGo_ok {M : Type} [AddCommMonoid M] [DecidableEq M]
    (numBits : ℕ) (bases : List M) (pairs : List (ℕ × Bool)) (cursor c : ℕ)
    (hc : 0 < c) (hc64 : c ≤ 64)
    (hcount : cursor + activeCount pairs ≤ bases.length)
    (hok : okBasesB (fun e => e) bases cursor pairs = true) :
    ∀ (fuel skip : ℕ) (ht : Bool), (ht = true ↔ skip = 0) →
      multiexpInnerGo numBits bases pairs cursor c fuel skip ht =
        .ok (psum (fun e => (e >>> skip) % 2 ^ cov numBits c fuel skip) bases cursor pairs) := by
  have hmono : ∀ skip ht, okBasesB (wght c skip ht) bases cursor pairs = true :=
    fun skip ht => okBasesB_mono _ _ bases (fun e => wght_ne_zero_imp c skip ht e) pairs cursor hok
  intro fuel
  induction fuel with
  | zero =>
    intro skip ht hts
    show region bases c skip ht pairs cursor = _
    rw [region_ok bases c skip ht pairs cursor hcount (hmono skip ht)]
    exact congrArg _ (psum_congr _ _ bases (fun e => wght_eq_mod c skip ht e hc hc64 hts) pairs cursor)
  | succ fuel ih =>
    intro skip ht hts
    by_cases hcond : numBits ≤ skip + c
    · simp only [multiexpInnerGo, hcond, if_true, cov]
      rw [region_ok bases c skip ht pairs cursor hcount (hmono skip ht)]
      exact congrArg _ (psum_congr _ _ bases (fun e => wght_eq_mod c skip ht e hc hc64 hts) pairs cursor)
    · have hrec := ih (skip + c) false (by simp only [Bool.false_eq_true, false_iff]; omega)
      simp only [multiexpInnerGo, hcond, if_false]
      rw [region_ok bases c skip ht pairs cursor hcount (hmono skip ht), hrec]
      show Except.ok _ = _
      have hsplit : ∀ e : ℕ,
          (e >>> skip) % 2 ^ (c + cov numBits c fuel (skip + c)) =
            wght c skip ht e + 2 ^ c * ((e >>> (skip + c)) % 2 ^ cov numBits c fuel (skip + c)) := by
        intro e
        rw [mod_pow_split, shiftRight_div_pow, wght_eq_mod c skip ht e hc hc64 hts]
      simp only [cov, hcond, if_false]
      rw [psum_congr _ _ bases hsplit pairs cursor, psum_add_mul]
      rw [add_comm]

theorem multiexpInnerGo_classify {M : Type} [AddCommMonoid M] [DecidableEq M]
    (numBits : ℕ) (bases : List M) (pairs : List (ℕ × Bool)) (cursor c : ℕ)
    (hcount : cursor + activeCount pairs ≤ bases.length) :
    ∀ (fuel skip : ℕ) (ht : Bool),
      (∃ v, multiexpInnerGo numBits bases pairs cursor c fuel skip ht = .ok v) ∨
        multiexpInnerGo numBits bases pairs cursor c fuel skip ht =
          .error .unexpectedIdentity := by
  intro fuel
  induction fuel with
  | zero =>
    intro skip ht
    exact region_classify bases c skip ht pairs cursor hcount
  | succ fuel ih =>
    intro skip ht
    by_cases hcond : numBits ≤ skip + c
    · simp only [multiexpInnerGo, hcond, if_true]
      exact region_classify bases c skip ht pairs cursor hcount
    · simp only [multiexpInnerGo, hcond, if_false]
      rcases region_classify bases c skip ht pairs cursor hcount with ⟨v, hv⟩ | hv
      · rw [hv]
        rcases ih (skip + c) false with ⟨w, hw⟩ | hw
        · rw [hw]
          exact Or.inl ⟨_, rfl⟩
        · rw [hw]
          exact Or.inr rfl
      · rw [hv]
        exact Or.inr rfl

theorem multiexpInnerGo_ok_mod_zero {M : Type} [AddCommMonoid M] [DecidableEq M]
    {numBits : ℕ} {bases : List M} {pairs : List (ℕ × Bool)} {cursor c : ℕ} {j e : ℕ}
    (hc : 0 < c) (hc64 : c ≤ 64)
    (hj : pairs[j]? = some (e, true))
    (hb : bases.getD (cursor + activeCount (pairs.take j)) 0 = 0) :
    ∀ (fuel skip : ℕ) (ht : Bool), (ht = true ↔ skip = 0) →
      (∃ v, multiexpInnerGo numBits bases pairs cursor c fuel skip ht = .ok v) →
      (e >>> skip) % 2 ^ cov numBits c fuel skip = 0 := by
  intro fuel
  induction fuel with
  | zero =>
    intro skip ht hts ⟨v, hv⟩
    have hw := region_ok_wght_zero (v := v) hv hj hb
    rw [wght_eq_mod c skip ht e hc hc64 hts] at hw
    simpa [cov] using hw
  | succ fuel ih =>
    intro skip ht hts ⟨v, hv⟩
    by_cases hcond : numBits ≤ skip + c
    · simp only [multiexpInnerGo, hcond, if_true] at hv
      have hw := region_ok_wght_zero (v := v) hv hj hb
      rw [wght_eq_mod c skip ht e hc hc64 hts] at hw
      simpa [cov, hcond] using hw
    · simp only [multiexpInnerGo, hcond, if_false] at hv
      cases hreg : region bases c skip ht pairs cursor with
      | error err => rw [hreg] at hv; cases hv
      | ok r =>
        rw [hreg] at hv
        cases hrec : multiexpInnerGo numBits bases pairs cursor c fuel (skip + c) false with
        | error err => rw [hrec] at hv; cases hv
        | ok w =>
          have h1 := region_ok_wght_zero (v := r) hreg hj hb
          rw [wght_eq_mod c skip ht e hc hc64 hts] at h1
          have h2 := ih (skip + c) false (by simp only [Bool.false_eq_true, false_iff]; omega) ⟨w, hrec⟩
          simp only [cov, hcond, if_false]
          rw [mod_pow_split, shiftRight_div_pow, h1, h2]
          simp

theorem psum_id_naiveAcc {M : Type} [AddCommMonoid M] (bases : List M) :
    ∀ (pairs : List (ℕ × Bool)) (cursor : ℕ),
      psum (fun e => e) bases cursor pairs = naiveAcc bases cursor pairs := by
  intro pairs
  induction pairs with
  | nil => intro cursor; rfl
  | cons p rest ih =>
    intro cursor
    obtain ⟨e, d⟩ := p
    cases d with
    | false => exact ih cursor
    | true => simp only [psum, naiveAcc, ih (cursor + 1)]

theorem mem_of_getElem_eq_some {α : Type} {l : List α} {n : ℕ} {a : α}
    (h : l[n]? = some a) : a ∈ l := by
  obtain ⟨hlt, he⟩ := List.getElem?_eq_some.mp h
  exact he ▸ List.getElem_mem hlt

/-- C1: For every base sequence, density map and exponent sequence of
consistent lengths — with every exponent below the scalar bit width
`2 ^ numBits`, the base source long enough for the active positions, and
no identity base at a position the scan consumes — the CPU bucket-method
multiexponentiation (`multiexp_inner` over all windows, `skip = 0`,
`handle_trivial = true`, i.e. `multiexp` with no kernel) returns the same
group element as the naive sequential accumulation of base times exponent
over the active positions, for every window width `c` in the range the
engine chooses (`0 < c ≤ 64`). -/
theorem multiexp_bucket_eq_naive {M : Type} [AddCommMonoid M] [DecidableEq M]
    (numBits c : ℕ) (bases : List M) (start : ℕ) (d : Density) (exps : List ℕ)
    (hc : 0 < c) (hc64 : c ≤ 64)
    (hexp : ∀ x ∈ exps, x < 2 ^ numBits)
    (_hlen : (densityList d exps.length).length = exps.length)
    (hcount : start + activeCount (exps.zip (densityList d exps.length)) ≤ bases.length)
    (hok : okBasesB (fun e => e) bases start (exps.zip (densityList d exps.length)) = true) :
    multiexpInner numBits bases (exps.zip (densityList d exps.length)) start 0 c true =
      .ok (naiveAcc bases start (exps.zip (densityList d exps.length))) := by
  have hgo := multiexpInnerGo_ok numBits bases (exps.zip (densityList d exps.length))
    start c hc hc64 hcount hok numBits 0 true (by simp)
  rw [multiexpInner, hgo]
  have hcov : numBits ≤ cov numBits c numBits 0 := by
    have h1 : 1 * (numBits + 1) ≤ c * (numBits + 1) :=
      Nat.mul_le_mul_right _ hc
    have h2 := cov_ge numBits c numBits 0 (by omega)
    omega
  congr 1
  rw [psum_congr_mem _ _ bases (exps.zip (densityList d exps.length)) start ?_,
    psum_id_naiveAcc]
  intro p hp
  have hmem : p.1 ∈ exps := (List.of_mem_zip hp).1
  have hlt : p.1 < 2 ^ cov numBits c numBits 0 :=
    lt_of_lt_of_le (hexp p.1 hmem) (Nat.pow_le_pow_right (by omega) hcov)
  rw [Nat.shiftRight_zero, Nat.mod_eq_of_lt hlt]

/-- Witness: the bucket method with `c = 3` on bases `[1, 2, 3]`,
full density and exponents `[1, 0, 1]` agrees with the naive sum. -/
theorem multiexp_bucket_eq_naive_witness :
    multiexpInner (M := ℤ) 8 [1, 2, 3]
        ([1, 0, 1].zip (densityList Density.full [1, 0, 1].length)) 0 0 3 true =
      .ok (naiveAcc [1, 2, 3] 0 ([1, 0, 1].zip (densityList Density.full [1, 0, 1].length))) :=
  multiexp_bucket_eq_naive 8 3 [1, 2, 3] 0 Density.full [1, 0, 1]
    (by decide) (by decide) (by decide) (by decide) (by decide) (by decide)

/-- C4: for every base sequence containing the group identity element at
the base index consumed by an active position whose exponent is nonzero
(so the base is consumed via `add_assign_mixed` in some window rather
than always skipped), `multiexp_inner` returns the distinct
`UnexpectedIdentity` error rather than any group element. -/
theorem multiexp_unexpected_identity {M : Type} [AddCommMonoid M] [DecidableEq M]
    (numBits c : ℕ) (bases : List M) (start : ℕ) (d : Density) (exps : List ℕ) (j e : ℕ)
    (hc : 0 < c) (hc64 : c ≤ 64)
    (hexp : ∀ x ∈ exps, x < 2 ^ numBits)
    (hj : (exps.zip (densityList d exps.length))[j]? = some (e, true))
    (he0 : e ≠ 0)
    (hb : bases.getD (start + activeCount ((exps.zip (densityList d exps.length)).take j)) 0 = 0)
    (hcount : start + activeCount (exps.zip (densityList d exps.length)) ≤ bases.length) :
    multiexpInner numBits bases (exps.zip (densityList d exps.length)) start 0 c true =
      .error .unexpectedIdentity := by
  rcases multiexpInnerGo_classify numBits bases (exps.zip (densityList d exps.length))
      start c hcount numBits 0 true with ⟨v, hv⟩ | hv
  · exfalso
    have hmod := multiexpInnerGo_ok_mod_zero hc hc64 hj hb numBits 0 true (by simp) ⟨v, hv⟩
    have hmem : e ∈ exps := (List.of_mem_zip (mem_of_getElem_eq_some hj)).1
    have hcov : numBits ≤ cov numBits c numBits 0 := by
      have h1 : 1 * (numBits + 1) ≤ c * (numBits + 1) :=
        Nat.mul_le_mul_right _ hc
      have h2 := cov_ge numBits c numBits 0 (by omega)
      omega
    have hlt : e < 2 ^ cov numBits c numBits 0 :=
      lt_of_lt_of_le (hexp e hmem) (Nat.pow_le_pow_right (by omega) hcov)
    rw [Nat.shiftRight_zero, Nat.mod_eq_of_lt hlt] at hmod
    exact he0 hmod
  · exact hv

/-- Witness: a single active exponent `1` over the identity base `0`
makes the engine fail with `UnexpectedIdentity`. -/
theorem multiexp_unexpected_identity_witness :
    multiexpInner (M := ℤ) 8 [0]
        ([1].zip (densityList Density.full [1].length)) 0 0 3 true =
      .error .unexpectedIdentity :=
  multiexp_unexpected_identity 8 3 [0] 0 Density.full [1] 0 1
    (by decide) (by decide) (by decide) (by decide) (by decide) (by decide) (by decide)

/-- C7: within each window scan, an active position with exponent zero is
skipped without accumulating; exponent one is added directly to the window
accumulator only when `handle_trivial` is true and skipped otherwise; for
other exponents the `c`-bit slice `b` of the exponent starting at bit
`skip` (for `c ≤ 64` the slice equals bits `[skip, skip + c)`, last
conjunct but one) selects bucket `b - 1` when `b ≠ 0` and the base is
skipped when `b = 0`; and the window recursion passes
`handle_trivial = false` to every higher window (last conjunct), so the
flag holds only for the lowest window. -/
theorem window_scan_branches {M : Type} [AddCommMonoid M] [DecidableEq M]
    (bases : List M) (c skip : ℕ) (st : ScanState M) (e : ℕ)
    (hcur : st.cursor < bases.length) :
    (∀ ht : Bool, e = 0 →
      stepPair bases c skip ht st e true = .ok { st with cursor := st.cursor + 1 }) ∧
    (e = 1 → bases.getD st.cursor 0 ≠ 0 →
      stepPair bases c skip true st e true =
        .ok { st with acc := st.acc + bases.getD st.cursor 0, cursor := st.cursor + 1 } ∧
      stepPair bases c skip false st e true = .ok { st with cursor := st.cursor + 1 }) ∧
    (2 ≤ e → sliceBits c skip e ≠ 0 → bases.getD st.cursor 0 ≠ 0 → ∀ ht : Bool,
      stepPair bases c skip ht st e true =
        .ok { st with
          buckets := st.buckets.set (sliceBits c skip e - 1)
            (st.buckets.getD (sliceBits c skip e - 1) 0 + bases.getD st.cursor 0),
          cursor := st.cursor + 1 }) ∧
    (2 ≤ e → sliceBits c skip e = 0 → ∀ ht : Bool,
      stepPair bases c skip ht st e true = .ok { st with cursor := st.cursor + 1 }) ∧
    (c ≤ 64 → sliceBits c skip e = (e >>> skip) % 2 ^ c) ∧
    (∀ (numBits : ℕ) (pairs : List (ℕ × Bool)) (cursor fuel : ℕ) (ht : Bool),
      ¬ numBits ≤ skip + c →
      multiexpInnerGo numBits bases pairs cursor c (fuel + 1) skip ht =
        match region bases c skip ht pairs cursor with
        | .error err => .error err
        | .ok this =>
          match multiexpInnerGo numBits bases pairs cursor c fuel (skip + c) false with
          | .error err => .error err
          | .ok higher => .ok (2 ^ c • higher + this)) := by
  have hle : ¬ (bases.length ≤ st.cursor) := by omega
  refine ⟨?_, ?_, ?_, ?_, ?_, ?_⟩
  · intro ht he0
    simp [stepPair, he0, skipSrc, hle]
  · intro he1 hbz
    simp only [List.getD_eq_getElem?_getD] at hbz
    subst he1
    constructor
    · simp [stepPair, consume, hle, hbz]
    · simp [stepPair, skipSrc, hle]
  · intro he2 hb0 hbz ht
    have he0 : e ≠ 0 := by omega
    have he1 : e ≠ 1 := by omega
    simp only [List.getD_eq_getElem?_getD] at hbz
    simp [stepPair, he0, he1, hb0, consume, hle, hbz]
  · intro he2 hb0 ht
    have he0 : e ≠ 0 := by omega
    have he1 : e ≠ 1 := by omega
    simp [stepPair, he0, he1, hb0, skipSrc, hle]
  · intro hc64
    exact Nat.mod_mod_of_dvd _ (pow_dvd_pow 2 hc64)
  · intro numBits pairs cursor fuel ht hcond
    simp only [multiexpInnerGo, hcond, if_false]

/-- Witness: exponent `5` at window `skip = 0`, `c = 3` lands in bucket
`5 - 1 = 4`, consuming base `7`. -/
theorem window_scan_branches_witness :
    stepPair [(7 : ℤ)] 3 0 true ⟨0, 0, [0, 0, 0, 0, 0, 0, 0]⟩ 5 true =
      .ok ⟨1, 0, [0, 0, 0, 0, 7, 0, 0]⟩ := by
  have h := (window_scan_branches [(7 : ℤ)] 3 0 ⟨0, 0, [0, 0, 0, 0, 0, 0, 0]⟩ 5
    (by decide)).2.2.1 (by decide) (by decide) (by decide) true
  rw [h]
  decide

theorem calc_c_ge32 (n : ℕ) (h : 32 ≤ n) :
    (calc_c n : ℤ) = ⌈Real.log n⌉ ∧ 3 < Real.log n := by
  have hn32 : (32 : ℝ) ≤ (n : ℝ) := by exact_mod_cast h
  have hlog32 : (3 : ℝ) < Real.log 32 := by
    have h32 : (32 : ℝ) = 2 ^ (5 : ℕ) := by norm_num
    rw [h32, Real.log_pow]
    have := Real.log_two_gt_d9
    push_cast
    nlinarith
  have hlog : (3 : ℝ) < Real.log n :=
    lt_of_lt_of_le hlog32 (Real.log_le_log (by norm_num) hn32)
  have hceil : (3 : ℤ) < ⌈Real.log n⌉ := Int.lt_ceil.mpr (by exact_mod_cast hlog)
  have hpos : (0 : ℤ) ≤ ⌈Real.log n⌉ := by omega
  constructor
  · simp only [calc_c, not_lt.mpr h, if_false]
    exact Int.toNat_of_nonneg hpos
  · exact hlog

/-- C6: on the CPU path (no kernel) `multiexp` chooses the window width
`calc_c exps.length`: `3` when there are fewer than 32 exponents, and
otherwise the natural logarithm of the element count rounded up to the
next integer — equivalently (second conjunct) the unique integer `c` with
`exp (c - 1) < count ≤ exp c`.  The `f64` logarithm of the source is
modelled as the exact real logarithm. -/
theorem multiexp_window_width (n : ℕ) :
    (n < 32 → calc_c n = 3) ∧
    (32 ≤ n → (calc_c n : ℤ) = ⌈Real.log n⌉ ∧
      Real.exp ((calc_c n : ℝ) - 1) < n ∧ (n : ℝ) ≤ Real.exp (calc_c n)) ∧
    (∀ (numBits : ℕ) (bases : List ℤ) (start : ℕ) (exps : List ℕ),
      multiexp numBits bases start .full exps none =
        some (multiexpInner numBits bases (exps.zip (densityList .full exps.length))
          start 0 (calc_c exps.length) true)) := by
  refine ⟨?_, ?_, ?_⟩
  · intro h
    simp [calc_c, h]
  · intro h
    obtain ⟨hcc, hlog⟩ := calc_c_ge32 n h
    have hnpos : (0 : ℝ) < (n : ℝ) := by
      have : (32 : ℝ) ≤ (n : ℝ) := by exact_mod_cast h
      linarith
    have hcast : ((calc_c n : ℕ) : ℝ) = ((⌈Real.log n⌉ : ℤ) : ℝ) := by
      exact_mod_cast congrArg (fun z : ℤ => (z : ℝ)) hcc
    refine ⟨hcc, ?_, ?_⟩
    · have h1 : ((⌈Real.log n⌉ : ℤ) : ℝ) - 1 < Real.log n := by
        have := Int.ceil_lt_add_one (Real.log n)
        linarith
      calc Real.exp ((calc_c n : ℝ) - 1)
          = Real.exp (((⌈Real.log n⌉ : ℤ) : ℝ) - 1) := by rw [hcast]
        _ < Real.exp (Real.log n) := Real.exp_lt_exp.mpr h1
        _ = n := Real.exp_log hnpos
    · have h2 : Real.log n ≤ ((⌈Real.log n⌉ : ℤ) : ℝ) := Int.le_ceil _
      calc (n : ℝ) = Real.exp (Real.log n) := (Real.exp_log hnpos).symm
        _ ≤ Real.exp (((⌈Real.log n⌉ : ℤ) : ℝ)) := Real.exp_le_exp.mpr h2
        _ = Real.exp ((calc_c n : ℝ)) := by rw [hcast]
  · intro numBits bases start exps
    rfl

/-- Witness: three exponents give window width 3. -/
theorem multiexp_window_width_witness : calc_c 3 = 3 :=
  (multiexp_window_width 3).1 (by decide)

theorem sbpGo_replicate_zero {M : Type} [AddCommMonoid M] :
    ∀ (n : ℕ) (acc : M), sbpGo (List.replicate n 0) 0 acc = acc := by
  intro n
  induction n with
  | zero => intro acc; rfl
  | succ m ih =>
    intro acc
    simp only [List.replicate_succ, sbpGo, add_zero]
    exact ih acc

theorem region_nil {M : Type} [AddCommMonoid M] [DecidableEq M]
    (bases : List M) (c skip : ℕ) (ht : Bool) (cursor : ℕ) :
    region bases c skip ht [] cursor = .ok 0 := by
  simp only [region, scanPairs]
  rw [List.reverse_replicate, sbpGo_replicate_zero]

theorem multiexpInnerGo_nil {M : Type} [AddCommMonoid M] [DecidableEq M]
    (numBits : ℕ) (bases : List M) (cursor c : ℕ) :
    ∀ (fuel skip : ℕ) (ht : Bool),
      multiexpInnerGo numBits bases [] cursor c fuel skip ht = .ok 0 := by
  intro fuel
  induction fuel with
  | zero => intro skip ht; exact region_nil ..
  | succ f ih =>
    intro skip ht
    unfold multiexpInnerGo
    rw [region_nil]
    by_cases hlt : numBits ≤ skip + c
    · simp [hlt]
    · simp [hlt, ih (skip + c) false]

/-- C10: with a kernel handle supplied and an empty exponent sequence,
`multiexp` panics on the out-of-bounds index `exponents[0]` (modelled as
`none`) instead of returning a result or an error — for every kernel,
base sequence and density map; the CPU path with an empty exponent
sequence returns the group zero without panicking. -/
theorem multiexp_gpu_empty_panics :
    (∀ (M : Type) [AddCommMonoid M] [DecidableEq M]
      (k : List M → List ℕ → ℕ → ℕ → Except SynthesisError M)
      (numBits start : ℕ) (bases : List M) (d : Density),
      multiexp numBits bases start d [] (some k) = none) ∧
    (∀ (M : Type) [AddCommMonoid M] [DecidableEq M]
      (numBits start : ℕ) (bases : List M),
      multiexp (M := M) numBits bases start .full [] none = some (.ok 0)) := by
  constructor
  · intro M _ _ k numBits start bases d
    rfl
  · intro M _ _ numBits start bases
    unfold multiexp
    simp only [densityQuerySize, List.zip_nil_left, multiexpInner, multiexpInnerGo_nil]

set_option maxRecDepth 100000 in
/-- C9 counterexample: with bases `[G, 2G, 3G]` (as `[1, 2, 3]` over ℤ),
density marking position 1 inactive, and exponents `[1, 5, 1]`, the CPU
multiexponentiation returns `3G`, not the `4G` the claim predicts: an
inactive position consumes no base element at all (it is not even
skipped), so the third position consumes the second base `2G`. -/
theorem multiexp_density_counterexample :
    multiexp (M := ℤ) 255 [1, 2, 3] 0 (.tracker ⟨[true, false, true], 2⟩) [1, 5, 1] none
        = some (.ok 3) ∧
    ¬ (multiexp (M := ℤ) 255 [1, 2, 3] 0 (.tracker ⟨[true, false, true], 2⟩) [1, 5, 1] none
        = some (.ok 4)) := by
  constructor
  · decide
  · decide

set_option maxRecDepth 100000 in
/-- C9 (amended): bases `[G, 2G, 3G]` with exponents `[1, 0, 1]`, all
active, yield `G + 3G = 4G` (the zero-exponent position skips its base);
with density marking position 1 inactive and exponents `[1, 5, 1]` the
result is `G + 2G = 3G`, because an inactive position is never consumed —
no base is used or skipped for it, so the remaining bases shift down. -/
theorem multiexp_concrete :
    multiexp (M := ℤ) 255 [1, 2, 3] 0 .full [1, 0, 1] none = some (.ok 4) ∧
    multiexp (M := ℤ) 255 [1, 2, 3] 0 (.tracker ⟨[true, false, true], 2⟩) [1, 5, 1] none
        = some (.ok 3) := by
  constructor
  · decide
  · decide

/-- C2: `PriorityLock::can_lock` returns true iff the thread-local
Priority Flag (`IS_ME`) is true or a non-blocking try-acquire of the
priority lock file succeeds; in particular, after the thread itself
acquires the priority lock (which sets the flag), `can_lock` returns true
even while the lock is held. -/
theorem can_lock_iff :
    (∀ s : PriorityState,
      PriorityLock.can_lock s = true ↔ (s.isMe = true ∨ tryAcquire s = true)) ∧
    (∀ s : PriorityState,
      (PriorityLock.lock s).heldBySelf = true ∧
      PriorityLock.can_lock (PriorityLock.lock s) = true) := by
  constructor
  · intro s
    simp [PriorityLock.can_lock]
  · intro s
    exact ⟨rfl, rfl⟩

/-- C8 counterexample: the side effects of `PriorityLock::unlock` are not
release-then-clear-flag; the source order is the opposite. -/
theorem unlock_order_counterexample :
    PriorityLock.unlockTrace ≠ [LockEvent.releaseFile, LockEvent.setFlag false] := by
  decide

/-- C8 (amended): `PriorityLock::unlock` first clears the calling
thread-local Priority Flag (`IS_ME`) and then releases the priority lock
file, in that order — the reverse of the order the claim states. -/
theorem unlock_order :
    PriorityLock.unlockTrace = [LockEvent.setFlag false, LockEvent.releaseFile] := rfl

theorem proverStep_keep (l f : Bool) (s : ProverState) (h : s.keepCpu = true) :
    proverStep l f s = (s, false) := by
  simp [proverStep, h]

theorem runProver_keep (fs : List Bool) (s : ProverState) (h : s.keepCpu = true) :
    runProver fs s = (s, List.replicate fs.length false) := by
  induction fs with
  | nil => rfl
  | cons f rest ih =>
    cases rest with
    | nil => simp [runProver, proverStep_keep _ _ _ h]
    | cons f' rest' =>
      simp [runProver, proverStep_keep _ _ _ h]
      have := ih
      simp [runProver] at this
      simp [this, List.replicate_succ]

theorem runProver_unlocks_le (fs : List Bool) : ∀ s : ProverState, s.keepCpu = false →
    (runProver fs s).1.unlocks ≤ s.unlocks + 1 := by
  induction fs with
  | nil =>
    intro s h
    simp [runProver]
  | cons f rest ih =>
    intro s h
    cases rest with
    | nil =>
      by_cases hf : f = true
      · simp [runProver, proverStep, hf, h]
      · simp at hf
        simp [runProver, proverStep, hf, h]
    | cons f' rest' =>
      by_cases hf : f = true
      · simp only [runProver, proverStep, hf, h]
        simpa using ih s h
      · simp at hf
        simp only [runProver, proverStep, hf, h]
        simp [runProver_keep _ (⟨true, s.unlocks + 1⟩ : ProverState) rfl]

/-- C3: in the multiexp blocks of `create_proof`, once `keep_cpu` is true
the remaining blocks leave the state unchanged (so `keep_cpu` is
monotone and no further unlock runs) and issue every call on the CPU path
(kernel argument `None`); and starting from the initial state, the
fallback unlock of the device lock is executed at most once per proof,
whatever device observations the blocks see. -/
theorem fallback_sticky :
    (∀ (fs : List Bool) (s : ProverState), s.keepCpu = true →
      (runProver fs s).1 = s ∧ ∀ g ∈ (runProver fs s).2, g = false) ∧
    (∀ fs : List Bool, (runProver fs ⟨false, 0⟩).1.unlocks ≤ 1) := by
  constructor
  · intro fs s h
    rw [runProver_keep fs s h]
    constructor
    · rfl
    · intro g hg
      exact List.eq_of_mem_replicate hg
  · intro fs
    exact runProver_unlocks_le fs ⟨false, 0⟩ rfl

/-- Witness: from a fallen-back state, three further blocks change
nothing and all run on the CPU. -/
theorem fallback_sticky_witness :
    (runProver [true, false, true] ⟨true, 3⟩).1 = ⟨true, 3⟩ ∧
    ∀ g ∈ (runProver [true, false, true] ⟨true, 3⟩).2, g = false :=
  fallback_sticky.1 [true, false, true] ⟨true, 3⟩ rfl

theorem count_set_true : ∀ (l : List Bool) (i : ℕ), l[i]? = some false →
    (l.set i true).count true = l.count true + 1 := by
  intro l
  induction l with
  | nil => intro i h; cases h
  | cons b t ih =>
    intro i h
    cases i with
    | zero =>
      simp only [List.getElem?_cons_zero, Option.some.injEq] at h
      subst h
      simp [List.count_cons]
    | succ j =>
      simp only [List.getElem?_cons_succ] at h
      simp only [List.set_cons_succ, List.count_cons, ih j h]
      generalize (if b = true then 1 else 0) = z
      omega

theorem applyDTOp_invariant (dt dt' : DensityTracker) (op : DTOp)
    (h : dtInvariant dt) (happ : applyDTOp dt op = some dt') : dtInvariant dt' := by
  cases op with
  | addElement =>
    injection happ with h'
    subst h'
    unfold dtInvariant DensityTracker.add_element DensityTracker.get_total_density at *
    simp [h]
  | inc i =>
    simp only [applyDTOp] at happ
    unfold DensityTracker.inc at happ
    cases hg : dt.bv[i]? with
    | none => rw [hg] at happ; cases happ
    | some b =>
      rw [hg] at happ
      cases b with
      | false =>
        simp at happ
        subst happ
        unfold dtInvariant DensityTracker.get_total_density at *
        simp [count_set_true dt.bv i hg, h]
      | true =>
        simp at happ
        subst happ
        exact h

theorem foldDTOps_invariant : ∀ (ops : List DTOp) (dt₀ dt : DensityTracker),
    dtInvariant dt₀ → List.foldlM applyDTOp dt₀ ops = some dt → dtInvariant dt := by
  intro ops
  induction ops with
  | nil =>
    intro dt₀ dt h hrun
    simp [List.foldlM] at hrun
    subst hrun
    exact h
  | cons op rest ih =>
    intro dt₀ dt h hrun
    simp only [List.foldlM] at hrun
    cases happ : applyDTOp dt₀ op with
    | none => rw [happ] at hrun; cases hrun
    | some dt₁ =>
      rw [happ] at hrun
      exact ih dt₁ dt (applyDTOp_invariant dt₀ dt₁ op h happ) hrun

/-- C5 counterexample: in the reachable state with bit 0 allocated and
already set (total 1), calling `inc 0` twice leaves the total at 1 — an
increase of 0, not the 1 the claim asserts for any allocated index. -/
theorem density_inc_twice_counterexample :
    runDTOps [DTOp.addElement, DTOp.inc 0] = some ⟨[true], 1⟩ ∧
    ((DensityTracker.mk [true] 1).inc 0).bind (fun dt => dt.inc 0)
        = some (DensityTracker.mk [true] 1) ∧
    ¬ ((DensityTracker.mk [true] 1).get_total_density
        = (DensityTracker.mk [true] 1).get_total_density + 1) := by
  decide

/-- C5 (amended): for every operation sequence the total-active-count
equals the number of set bits; `inc` is idempotent — a second `inc i`
after a successful one returns the same state; two calls on an allocated
index increase the count by exactly 1 when the bit was unset, and by 0
(never 2) when the bit was already set. -/
theorem density_invariant_idempotent :
    (∀ (ops : List DTOp) (dt : DensityTracker), runDTOps ops = some dt →
      dt.get_total_density = dt.bv.count true) ∧
    (∀ (dt dt₁ : DensityTracker) (i : ℕ), dt.inc i = some dt₁ →
      dt₁.inc i = some dt₁) ∧
    (∀ (dt : DensityTracker) (i : ℕ), dt.bv[i]? = some false →
      ∃ dt₁, dt.inc i = some dt₁ ∧
        dt₁.get_total_density = dt.get_total_density + 1) ∧
    (∀ (dt : DensityTracker) (i : ℕ), dt.bv[i]? = some true →
      dt.inc i = some dt) := by
  refine ⟨?_, ?_, ?_, ?_⟩
  · intro ops dt hrun
    exact foldDTOps_invariant ops DensityTracker.new dt rfl hrun
  · intro dt dt₁ i h
    unfold DensityTracker.inc at *
    cases hg : dt.bv[i]? with
    | none => rw [hg] at h; cases h
    | some b =>
      rw [hg] at h
      cases b with
      | false =>
        simp at h
        subst h
        have hlt : i < dt.bv.length := by
          by_contra hn
          rw [List.getElem?_eq_none (by omega)] at hg
          cases hg
        have hset : (dt.bv.set i true)[i]? = some true :=
          List.getElem?_set_eq_of_lt true hlt
        simp [hset]
      | true =>
        simp at h
        subst h
        simp [hg]
  · intro dt i hg
    refine ⟨⟨dt.bv.set i true, dt.total_density + 1⟩, ?_, rfl⟩
    unfold DensityTracker.inc
    rw [hg]
    rfl
  · intro dt i hg
    unfold DensityTracker.inc
    rw [hg]
    rfl

/-- Witness: after `add_element; inc 0` the tracker is `⟨[true], 1⟩` and
its total equals the popcount of its bit vector. -/
theorem density_invariant_idempotent_witness :
    runDTOps [DTOp.addElement, DTOp.inc 0] = some ⟨[true], 1⟩ ∧
    (DensityTracker.mk [true] 1).get_total_density = [true].count true :=
  ⟨by decide, density_invariant_idempotent.1 [DTOp.addElement, DTOp.inc 0] ⟨[true], 1⟩ (by decide)⟩

end Bellman
